import Mathlib

set_option linter.unusedVariables false

/-!
# Verification of the `worker_threads_clusters` dispatch core

A shallow embedding, in Lean, of the parts of the repository that the
specification's checkable sentences talk about:

* the `name: value\n` event/control framing written by the node
  (`src/server/WorkersManager.ts`, `pipeWorkerReadStreams`) and the
  chunk-tolerant line parser of the client demultiplexer
  (`src/client/node/Worker.ts`, `processReadPipes`);
* the bundle-cache HTTP handlers (`src/server/BundlesManager.ts`);
* the placement policy (`src/client/Client.ts`, `_findNodeToUse`);
* the client worker handle's post-exit guards and stdin handler
  (`src/client/node/Worker.ts`);
* the `exitOnRequestEnd` grace-window logic
  (`src/server/WorkersManager.ts`, `pipeWorkerReadStreams` close handler);
* the per-core CPU sampling (`helpers/cpu.ts`, `getCPUUsage`).

JavaScript strings are modelled as `List Char`, byte buffers as `List Nat`
with the validity side condition that every byte is `< 256`.  The file is
organised as one block of definitions (each translated from the named
source location) followed by the theorems about them.
-/

namespace WTC

/-! ## Definitions: JavaScript string helpers -/

/-- Model of `String.prototype.split(sep)` for a one-character separator.  JS returns
a non-empty array of fragments; we return the first fragment paired with the
list of later fragments, so the JS result is `r.1 :: r.2`. -/
def splitSep (sep : Char) : List Char → List Char × List (List Char)
  | [] => ([], [])
  | c :: cs =>
    match splitSep sep cs with
    | (h, t) => if c = sep then ([], h :: t) else (c :: h, t)

/-- Whitespace as recognized by `String.prototype.trimStart` (the ASCII
part of the JS WhiteSpace/LineTerminator productions; the values this
development trims never contain the non-ASCII ones). -/
def isJsWs (c : Char) : Bool :=
  c = ' ' || c = '\t' || c = '\n' || c = '\r' || c = '\x0b' || c = '\x0c'

/-- Model of `String.prototype.trimStart`. -/
def trimStart (l : List Char) : List Char := l.dropWhile isJsWs

/-! ## Definitions: base64

`Buffer.toString('base64')` / `Buffer.from(value, 'base64')`: the standard
alphabet with `=` padding, three input bytes per four output characters. -/

def b64Alphabet : List Char :=
  ['A','B','C','D','E','F','G','H','I','J','K','L','M','N','O','P',
   'Q','R','S','T','U','V','W','X','Y','Z',
   'a','b','c','d','e','f','g','h','i','j','k','l','m','n','o','p',
   'q','r','s','t','u','v','w','x','y','z',
   '0','1','2','3','4','5','6','7','8','9','+','/']

def b64Char (n : Nat) : Char := b64Alphabet.getD n 'A'

def b64Val (c : Char) : Nat := b64Alphabet.indexOf c

def b64encode : List Nat → List Char
  | [] => []
  | [b0] => [b64Char (b0 / 4), b64Char (b0 % 4 * 16), '=', '=']
  | [b0, b1] => [b64Char (b0 / 4), b64Char (b0 % 4 * 16 + b1 / 16),
      b64Char (b1 % 16 * 4), '=']
  | b0 :: b1 :: b2 :: rest =>
      b64Char (b0 / 4) :: b64Char (b0 % 4 * 16 + b1 / 16) ::
      b64Char (b1 % 16 * 4 + b2 / 64) :: b64Char (b2 % 64) :: b64encode rest

def b64decode : List Char → List Nat
  | c0 :: c1 :: c2 :: c3 :: rest =>
      if c2 = '=' then [b64Val c0 * 4 + b64Val c1 / 16]
      else if c3 = '=' then
        [b64Val c0 * 4 + b64Val c1 / 16, b64Val c1 % 16 * 16 + b64Val c2 / 4]
      else
        (b64Val c0 * 4 + b64Val c1 / 16) ::
        (b64Val c1 % 16 * 16 + b64Val c2 / 4) ::
        (b64Val c2 % 4 * 64 + b64Val c3) :: b64decode rest
  | _ => []

/-! ## Definitions: decimal rendering and parsing

`${exitCode}` renders a non-negative JS number in decimal;
`parseInt(value)` reads it back. -/

def digitChar (n : Nat) : Char := Char.ofNat (48 + n)

def digitVal (c : Char) : Nat := c.toNat - 48

/-- Digits of `n`, most significant first; `fuel`-structural so that it is
kernel-reducible (any `fuel ≥ n` gives the digits of `n`). -/
def natDigitsFuel (fuel n : Nat) : List Char :=
  match fuel with
  | 0 => [digitChar (n % 10)]
  | f + 1 =>
    if n < 10 then [digitChar n]
    else natDigitsFuel f (n / 10) ++ [digitChar (n % 10)]

def natDigits (n : Nat) : List Char := natDigitsFuel n n

def parseDecimal (l : List Char) : Nat :=
  l.foldl (fun acc c => acc * 10 + digitVal c) 0

/-! ## Definitions: worker events and the event-stream writer

From `WorkersManager.pipeWorkerReadStreams`: each worker event is written to
the response as one line `name: value\n`; `stdout`/`stderr`/`message`
payloads and the serialized error envelope are base64-encoded, the exit code
is decimal, the online flag is the literal `true`/`false`. -/

inductive WEvent where
  | online (flag : Bool)
  | stdout (bytes : List Nat)
  | stderr (bytes : List Nat)
  | message (bytes : List Nat)
  | exited (code : Nat)
  | errored (envelope : List Nat)
deriving DecidableEq

/-- Payload bytes of an event are real bytes. -/
def ValidBytes (bs : List Nat) : Prop := ∀ b ∈ bs, b < 256

instance : DecidablePred ValidBytes := fun bs => List.decidableBAll _ bs

def ValidEvent : WEvent → Prop
  | .online _ => True
  | .stdout bs => ValidBytes bs
  | .stderr bs => ValidBytes bs
  | .message bs => ValidBytes bs
  | .exited _ => True
  | .errored bs => ValidBytes bs

instance : DecidablePred ValidEvent := fun e =>
  match e with
  | .online _ => inferInstanceAs (Decidable True)
  | .stdout bs => inferInstanceAs (Decidable (ValidBytes bs))
  | .stderr bs => inferInstanceAs (Decidable (ValidBytes bs))
  | .message bs => inferInstanceAs (Decidable (ValidBytes bs))
  | .exited _ => inferInstanceAs (Decidable True)
  | .errored bs => inferInstanceAs (Decidable (ValidBytes bs))

def eventName : WEvent → List Char
  | .online _ => "online".toList
  | .stdout _ => "stdout".toList
  | .stderr _ => "stderr".toList
  | .message _ => "message".toList
  | .exited _ => "exit".toList
  | .errored _ => "error".toList

def eventValue : WEvent → List Char
  | .online b => if b then "true".toList else "false".toList
  | .stdout bs => b64encode bs
  | .stderr bs => b64encode bs
  | .message bs => b64encode bs
  | .exited code => natDigits code
  | .errored bs => b64encode bs

/-- One emitted record, without its terminating newline: the writer emits
`res.write('name: ' + value + '\n')` for every event. -/
def encodeRecord (e : WEvent) : List Char :=
  eventName e ++ ':' :: ' ' :: eventValue e

/-- The byte stream the node writes for a sequence of events. -/
def encodeStream (es : List WEvent) : List Char :=
  (es.map (fun e => encodeRecord e ++ ['\n'])).flatten

/-! ## Definitions: the chunk-tolerant line parser

From `Worker.processReadPipes` (and identically
`WorkersManager.pipeWorkerWriteStreams`): on each `data` chunk, split the
chunk by `\n`, append the first fragment to the pending buffer, then for
each later fragment dispatch the buffer to `onMessage` and restart the
buffer from that fragment. -/

/-- The inner `for` loop over the fragments after the first. -/
def dispatchLoop : List Char → List (List Char) → List (List Char) →
    List Char × List (List Char)
  | buf, out, [] => (buf, out)
  | buf, out, c :: cs => dispatchLoop c (out ++ [buf]) cs

/-- The `data` handler for one chunk: state is (pending buffer, lines
dispatched so far). -/
def stepChunk (st : List Char × List (List Char)) (chunk : List Char) :
    List Char × List (List Char) :=
  match splitSep '\n' chunk with
  | (h, t) => dispatchLoop (st.1 ++ h) st.2 t

/-- Character-by-character reformulation of the same parser (used to prove
chunk-boundary independence). -/
def lineStep (st : List Char × List (List Char)) (c : Char) :
    List Char × List (List Char) :=
  if c = '\n' then ([], st.2 ++ [st.1]) else (st.1 ++ [c], st.2)

/-- Feeding a whole sequence of chunks, starting from the empty buffer. -/
def parseChunks (chunks : List (List Char)) : List Char × List (List Char) :=
  chunks.foldl stepChunk ([], [])

/-! ## Definitions: the demultiplexer's per-line name/value extraction

From `Worker.processReadPipes.onMessage`: `chunks = data.split(':')`,
`name = chunks[0]`, `value = chunks[1].trimStart()`. -/

def lineName (l : List Char) : List Char := (splitSep ':' l).1

def lineValue (l : List Char) : List Char :=
  trimStart ((splitSep ':' l).2.headD [])

/-- Proof-side inverse of `encodeRecord` (not part of the program): reads an
emitted record back into the event it encodes, using the same name/value
extraction as the demultiplexer.  Used to show the record encoding is
injective, i.e. dispatched records determine the original events. -/
def recoverRecord (l : List Char) : Option WEvent :=
  let name := lineName l
  let value := lineValue l
  if name = "online".toList then
    if value = "true".toList then some (.online true)
    else if value = "false".toList then some (.online false)
    else none
  else if name = "stdout".toList then some (.stdout (b64decode value))
  else if name = "stderr".toList then some (.stderr (b64decode value))
  else if name = "message".toList then some (.message (b64decode value))
  else if name = "exit".toList then some (.exited (parseDecimal value))
  else if name = "error".toList then some (.errored (b64decode value))
  else none

/-! ## Definitions: the node's control-stream `onMessage`

From `WorkersManager.pipeWorkerWriteStreams.onMessage`: decode the line's
value from base64 and act on the name; a `stdin` record is written to the
child's stdin pipe only when that pipe exists (`worker.stdin?.write`),
otherwise it is silently dropped; unrecognized names fall through. -/

inductive ControlAction where
  | stdinWrite (bytes : List Nat)
  | workerMessage (bytes : List Nat)
  | terminateWorker
  | dropped
deriving DecidableEq

def controlOnMessage (hasStdinPipe : Bool) (line : List Char) : ControlAction :=
  let name := lineName line
  let decoded := b64decode (lineValue line)
  if name = "stdin".toList then
    if hasStdinPipe then .stdinWrite decoded else .dropped
  else if name = "worker_message".toList then .workerMessage decoded
  else if name = "terminate".toList then .terminateWorker
  else .dropped

/-! ## Definitions: bundle cache (`BundlesManager`)

State: the in-memory `cachedBundledHashes` array and the contents of the
scratch directory (hash ↦ bytes of `{hash}.js`). -/

structure BundleCache where
  cachedBundledHashes : List String
  files : List (String × List Nat)
deriving DecidableEq

/-- Model of `writeFileSync(file, data)`: replace or create the file. -/
def setFile (files : List (String × List Nat)) (hash : String)
    (data : List Nat) : List (String × List Nat) :=
  (hash, data) :: files.filter (fun p => p.1 ≠ hash)

/-- Handler of `POST /bundles/create`: `writeFileSync(file, ''); cachedBundledHashes.push(hash);
res.status(201)`. -/
def bundlesCreate (st : BundleCache) (hash : String) : BundleCache × Nat :=
  ({ cachedBundledHashes := st.cachedBundledHashes ++ [hash],
     files := setFile st.files hash [] }, 201)

/-- Handler of `GET /bundles/:hash`: 404 unless the hash is in `cachedBundledHashes`,
otherwise 200 with `{hash, size: statSync(file).size, ...}`.  The body is
modelled as (hash, size). -/
def bundlesDescribe (st : BundleCache) (hash : String) :
    Option (String × Nat) × Nat :=
  if hash ∈ st.cachedBundledHashes then
    (some (hash, ((st.files.lookup hash).getD []).length), 200)
  else (none, 404)

/-- JS `x || d` for an optional query-string value: `undefined` and the
empty string are both falsy. -/
def jsQueryDefault (q : Option String) (d : String) : String :=
  match q with
  | none => d
  | some s => if s = "" then d else s

/-- Handler of `POST /bundles/:hash/data`: 404 if the hash is not cached, 400 if the
body is not a `Buffer` (modelled by `none`), otherwise write the body iff
the resolved compression is `none`, and respond 204. -/
def bundlesPutData (st : BundleCache) (hash : String) (body : Option (List Nat))
    (compressionQ : Option String) : BundleCache × Nat :=
  if hash ∉ st.cachedBundledHashes then (st, 404)
  else
    match body with
    | none => (st, 400)
    | some data =>
      let compression := jsQueryDefault compressionQ "none"
      if compression = "none" then
        ({ st with files := setFile st.files hash data }, 204)
      else (st, 204)

/-- The bundle-cache state in which `create` has reserved a slot for `hash`
but `put_data` has not completed: the hash is cached and its file still has
the empty contents written by `create`. -/
def PendingSlot (st : BundleCache) (hash : String) : Prop :=
  hash ∈ st.cachedBundledHashes ∧ st.files.lookup hash = some []

instance (st : BundleCache) (hash : String) : Decidable (PendingSlot st hash) :=
  inferInstanceAs (Decidable (_ ∧ _))

/-! ## Definitions: placement policy (`Client._findNodeToUse`)

The client stores `_lastIndex = -1` at construction.  The `incremental`
branch advances the cursor by one, resetting to 0 when `nodes[newIndex]` is
absent; nodes are identified by their registration index. -/

def findNodeIncremental (n : Nat) (lastIndex : Int) : Nat × Int :=
  if 0 ≤ lastIndex + 1 ∧ lastIndex + 1 < (n : Int) then
    ((lastIndex + 1).toNat, lastIndex + 1)
  else (0, 0)

/-- Run of `k` consecutive spawns against `n` registered nodes, from a fresh
client: returns the final cursor and the list of selected node indices. -/
def incrementalRun (n : Nat) : Nat → Int × List Nat
  | 0 => (-1, [])
  | k + 1 =>
    let prev := incrementalRun n k
    let sel := findNodeIncremental n prev.1
    (sel.2, prev.2 ++ [sel.1])

/-- The `GET /health` response cached on a `NodeClient`. -/
structure NodeUsage where
  workersRunning : Nat
  cpuUsage : List ℚ
deriving DecidableEq

/-- The fields of `NodeClient` that the balancing branch reads. -/
structure NodeClient where
  name : Option String
  usage : Option NodeUsage
deriving DecidableEq

def defaultNode : NodeClient := ⟨none, none⟩

/-- Mean utilization `usage.cpuUsage.reduce((a, b) => a + b) / usage.cpuUsage.length`
(the source throws on an empty array; theorems assume non-empty). -/
def averageCPUUsage (u : NodeUsage) : ℚ :=
  u.cpuUsage.sum / u.cpuUsage.length

/-- The sort comparator of the balancing branch, as the total preorder `a
may come before b`: the JS comparator returns -1 when `mean a > mean b`, 1
when `mean b > mean a`, 0 otherwise (and 0 whenever either usage is null),
so `a` may precede `b` iff the comparator is ≤ 0.  `Array.prototype.sort`
is stable, so the sort is modelled by the stable `List.mergeSort`. -/
def balancingLe (a b : NodeClient) : Bool :=
  match a.usage, b.usage with
  | some ua, some ub => decide (averageCPUUsage ub ≤ averageCPUUsage ua)
  | _, _ => true

/-- The `balancing` branch of `_findNodeToUse`: filter to nodes with a load
sample; if none, keep `nodes[0]` and leave the cursor untouched; otherwise
sort descending by mean usage and advance the cursor within the sorted
list, resetting to 0 when out of range. -/
def findNodeBalancing (nodes : List NodeClient) (lastIndex : Int) :
    NodeClient × Int :=
  if (nodes.filter (fun n => n.usage.isSome)).length < 1 then
    (nodes.headD defaultNode, lastIndex)
  else if 0 ≤ lastIndex + 1 ∧ lastIndex + 1 <
      (((nodes.filter (fun n => n.usage.isSome)).mergeSort balancingLe).length : Int) then
    (((nodes.filter (fun n => n.usage.isSome)).mergeSort balancingLe).getD
      (lastIndex + 1).toNat defaultNode, lastIndex + 1)
  else
    (((nodes.filter (fun n => n.usage.isSome)).mergeSort balancingLe).getD 0
      defaultNode, 0)

/-! ## Definitions: client worker handle, post-exit behaviour

From `Worker` (client side): `exitCode : number | null` is `null` until the
`exit` event stores the code (or an error stores 1); `postMessage`,
`terminate` and the `stdin` data handler guard with `if (this.exitCode)
throw workedExitError` — JS truthiness, under which both `null` and `0` are
falsy. -/

def exitCodeTruthy : Option Int → Bool
  | none => false
  | some c => decide (c ≠ 0)

/-- The well-known error: `new Error('Worker has exited.')` with
`code = 'ERR_WORKER_EXITED'`. -/
def workedExitError : String := "ERR_WORKER_EXITED"

/-- Model of `Worker.postMessage(value)`: throws after exit (per the truthiness
guard), otherwise writes `worker_message: <base64>\n` to the control
pipe. -/
def postMessageW (exitCode : Option Int) (value : List Nat) :
    Except String (List Char) :=
  if exitCodeTruthy exitCode then .error workedExitError
  else .ok ("worker_message: ".toList ++ b64encode value ++ ['\n'])

/-- Model of `Worker.terminate()`: rejects after exit, otherwise writes
`terminate: true\n`. -/
def terminateW (exitCode : Option Int) : Except String (List Char) :=
  if exitCodeTruthy exitCode then .error workedExitError
  else .ok "terminate: true\n".toList

/-- The `stdin.on('data')` handler: throws after exit; otherwise writes
`stdin: <base64>\n` to the control pipe and warns iff the `stdin` option
was not enabled (the warning is inside the handler, so it runs on every
write). Returns (control bytes, warned?). -/
def stdinDataHandler (stdinOpt : Bool) (exitCode : Option Int)
    (chunk : List Nat) : Except String (List Char × Bool) :=
  if exitCodeTruthy exitCode then .error workedExitError
  else .ok ("stdin: ".toList ++ b64encode chunk ++ ['\n'], !stdinOpt)

/-- A sequence of caller writes to `stdin` on a live worker
(`exitCode = null`): total control bytes and number of warnings printed. -/
def runStdinWrites (stdinOpt : Bool) : List (List Nat) → List Char × Nat
  | [] => ([], 0)
  | chunk :: rest =>
    let r := runStdinWrites stdinOpt rest
    match stdinDataHandler stdinOpt none chunk with
    | .ok (bytes, warned) => (bytes ++ r.1, (if warned then 1 else 0) + r.2)
    | .error _ => r

/-! ## Definitions: `exitOnRequestEnd` grace window

From `pipeWorkerReadStreams`: every attach increments
`numOfConnectedSockets`; the `close` handler decrements it and, when the
stream was opened with `exitOnRequestEnd` and the count has reached zero,
schedules a 1-second timer; the timer terminates the worker only if the
count is still zero when it fires.  Modelled as a small transition system
whose events are stream attaches, stream closes (carrying that stream's
`exitOnRequestEnd` flag) and grace-timer firings. -/

structure GraceState where
  sockets : Int
  pending : Nat
  terminated : Bool
deriving DecidableEq

inductive GraceEv where
  | attach
  | close (exitOnRequestEnd : Bool)
  | fire
deriving DecidableEq

def graceStep (s : GraceState) : GraceEv → GraceState
  | .attach => { s with sockets := s.sockets + 1 }
  | .close flag =>
    let s1 : GraceState := { s with sockets := s.sockets - 1 }
    if flag ∧ s1.sockets = 0 then { s1 with pending := s1.pending + 1 } else s1
  | .fire =>
    match s.pending with
    | 0 => s
    | p + 1 =>
      if s.sockets = 0 then { s with pending := p, terminated := true }
      else { s with pending := p }

def graceRun (s : GraceState) : List GraceEv → GraceState
  | [] => s
  | e :: es => graceRun (graceStep s e) es

/-! ## Definitions: per-core CPU sampling (`helpers/cpu.ts`, `getCPUUsage`)

`timesBefore` is captured at module load (process start) and replaced on
every call; each call maps the current readings against the previous ones
and reports `1 - idle / (user + sys + idle)` over the deltas.  A zero
total delta makes the JS expression `0/0 = NaN` (non-finite), modelled as
`none`. -/

structure CPUTimes where
  user : ℚ
  sys : ℚ
  idle : ℚ
deriving DecidableEq

def cpuUtilization (delta : CPUTimes) : Option ℚ :=
  if delta.user + delta.sys + delta.idle = 0 then none
  else some (1 - delta.idle / (delta.user + delta.sys + delta.idle))

def getCPUUsage (timesBefore timesCurrent : List CPUTimes) :
    List (Option ℚ) × List CPUTimes :=
  let timeDeltas := List.zipWith
    (fun t b => CPUTimes.mk (t.user - b.user) (t.sys - b.sys) (t.idle - b.idle))
    timesCurrent timesBefore
  (timeDeltas.map cpuUtilization, timesCurrent)

/-! ## Theorems: string helpers -/

theorem splitSep_not_mem {sep : Char} {l : List Char} (h : sep ∉ l) :
    splitSep sep l = (l, []) := by
  induction l with
  | nil => rfl
  | cons c cs ih =>
    have hc : ¬c = sep := fun hh => h (hh ▸ List.mem_cons_self c cs)
    have hcs : sep ∉ cs := fun hh => h (List.mem_cons_of_mem _ hh)
    simp [splitSep, ih hcs, hc]

theorem splitSep_append_sep {sep : Char} {a b : List Char}
    (ha : sep ∉ a) (hb : sep ∉ b) :
    splitSep sep (a ++ sep :: b) = (a, [b]) := by
  induction a with
  | nil => simp [splitSep, splitSep_not_mem hb]
  | cons c cs ih =>
    have hc : ¬c = sep := fun hh => ha (hh ▸ List.mem_cons_self c cs)
    have hcs : sep ∉ cs := fun hh => ha (List.mem_cons_of_mem _ hh)
    simp only [List.cons_append, splitSep, List.append_eq, ih hcs, hc, if_false]

theorem trimStart_of_head_not_ws {l : List Char}
    (h : l = [] ∨ ∃ c cs, l = c :: cs ∧ isJsWs c = false) :
    trimStart (' ' :: l) = l := by
  rcases h with rfl | ⟨c, cs, rfl, hc⟩
  · rfl
  · rw [trimStart, List.dropWhile_cons, if_pos (by decide), List.dropWhile_cons, hc]
    simp

/-! ## Theorems: base64 -/

theorem b64Val_b64Char : ∀ n < 64, b64Val (b64Char n) = n := by decide

theorem b64Char_ne_eq : ∀ n < 64, b64Char n ≠ '=' := by decide

theorem b64decode_b64encode {bs : List Nat} (h : ∀ b ∈ bs, b < 256) :
    b64decode (b64encode bs) = bs := by
  induction bs using b64encode.induct with
  | case1 => rfl
  | case2 b0 =>
    have hb0 : b0 < 256 := h b0 (by simp)
    have e0 : b64Val (b64Char (b0 / 4)) = b0 / 4 := b64Val_b64Char _ (by omega)
    have e1 : b64Val (b64Char (b0 % 4 * 16)) = b0 % 4 * 16 :=
      b64Val_b64Char _ (by omega)
    show b64decode [b64Char (b0 / 4), b64Char (b0 % 4 * 16), '=', '='] = [b0]
    rw [b64decode, if_pos rfl, e0, e1]
    simp only [List.cons.injEq, and_true]
    omega
  | case3 b0 b1 =>
    have hb0 : b0 < 256 := h b0 (by simp)
    have hb1 : b1 < 256 := h b1 (by simp)
    have e0 : b64Val (b64Char (b0 / 4)) = b0 / 4 := b64Val_b64Char _ (by omega)
    have e1 : b64Val (b64Char (b0 % 4 * 16 + b1 / 16)) = b0 % 4 * 16 + b1 / 16 :=
      b64Val_b64Char _ (by omega)
    have e2 : b64Val (b64Char (b1 % 16 * 4)) = b1 % 16 * 4 :=
      b64Val_b64Char _ (by omega)
    have n2 : b64Char (b1 % 16 * 4) ≠ '=' := b64Char_ne_eq _ (by omega)
    show b64decode [b64Char (b0 / 4), b64Char (b0 % 4 * 16 + b1 / 16),
        b64Char (b1 % 16 * 4), '='] = [b0, b1]
    rw [b64decode, if_neg n2, if_pos rfl, e0, e1, e2]
    simp only [List.cons.injEq, and_true]
    exact ⟨by omega, by omega⟩
  | case4 b0 b1 b2 rest ih =>
    have hb0 : b0 < 256 := h b0 (by simp)
    have hb1 : b1 < 256 := h b1 (by simp)
    have hb2 : b2 < 256 := h b2 (by simp)
    have hrest : ∀ b ∈ rest, b < 256 := fun b hb => h b (by simp [hb])
    have e0 : b64Val (b64Char (b0 / 4)) = b0 / 4 := b64Val_b64Char _ (by omega)
    have e1 : b64Val (b64Char (b0 % 4 * 16 + b1 / 16)) = b0 % 4 * 16 + b1 / 16 :=
      b64Val_b64Char _ (by omega)
    have e2 : b64Val (b64Char (b1 % 16 * 4 + b2 / 64)) = b1 % 16 * 4 + b2 / 64 :=
      b64Val_b64Char _ (by omega)
    have e3 : b64Val (b64Char (b2 % 64)) = b2 % 64 := b64Val_b64Char _ (by omega)
    have n2 : b64Char (b1 % 16 * 4 + b2 / 64) ≠ '=' := b64Char_ne_eq _ (by omega)
    have n3 : b64Char (b2 % 64) ≠ '=' := b64Char_ne_eq _ (by omega)
    show b64decode (b64Char (b0 / 4) :: b64Char (b0 % 4 * 16 + b1 / 16) ::
        b64Char (b1 % 16 * 4 + b2 / 64) :: b64Char (b2 % 64) :: b64encode rest) =
        b0 :: b1 :: b2 :: rest
    rw [b64decode, if_neg n2, if_neg n3, e0, e1, e2, e3, ih hrest]
    simp only [List.cons.injEq, and_true]
    exact ⟨by omega, by omega, by omega⟩

theorem b64Char_mem (n : Nat) : b64Char n ∈ b64Alphabet := by
  unfold b64Char
  by_cases h : n < b64Alphabet.length
  · rw [List.getD_eq_getElem?_getD, List.getElem?_eq_getElem h]
    exact List.getElem_mem h
  · rw [List.getD_eq_default _ _ (by omega)]
    decide

theorem b64encode_mem {bs : List Nat} {c : Char} (hc : c ∈ b64encode bs) :
    c ∈ b64Alphabet ∨ c = '=' := by
  induction bs using b64encode.induct with
  | case1 => simp [b64encode] at hc
  | case2 b0 =>
    simp only [b64encode, List.mem_cons, List.not_mem_nil, or_false] at hc
    rcases hc with rfl | rfl | rfl | rfl
    · exact Or.inl (b64Char_mem _)
    · exact Or.inl (b64Char_mem _)
    · exact Or.inr rfl
    · exact Or.inr rfl
  | case3 b0 b1 =>
    simp only [b64encode, List.mem_cons, List.not_mem_nil, or_false] at hc
    rcases hc with rfl | rfl | rfl | rfl
    · exact Or.inl (b64Char_mem _)
    · exact Or.inl (b64Char_mem _)
    · exact Or.inl (b64Char_mem _)
    · exact Or.inr rfl
  | case4 b0 b1 b2 rest ih =>
    simp only [b64encode, List.mem_cons] at hc
    rcases hc with rfl | rfl | rfl | rfl | hmem
    · exact Or.inl (b64Char_mem _)
    · exact Or.inl (b64Char_mem _)
    · exact Or.inl (b64Char_mem _)
    · exact Or.inl (b64Char_mem _)
    · exact ih hmem

theorem b64Alphabet_not_ws : ∀ c ∈ b64Alphabet, isJsWs c = false := by decide

theorem b64encode_no_colon {bs : List Nat} : ':' ∉ b64encode bs := by
  intro hc
  rcases b64encode_mem hc with hmem | heq
  · revert hmem; decide
  · exact absurd heq (by decide)

theorem b64encode_no_nl {bs : List Nat} : '\n' ∉ b64encode bs := by
  intro hc
  rcases b64encode_mem hc with hmem | heq
  · revert hmem; decide
  · exact absurd heq (by decide)

theorem b64encode_head_not_ws {bs : List Nat} {c : Char} {cs : List Char}
    (h : b64encode bs = c :: cs) : isJsWs c = false := by
  have hc : c ∈ b64encode bs := h ▸ List.mem_cons_self c cs
  rcases b64encode_mem hc with hmem | heq
  · exact b64Alphabet_not_ws c hmem
  · subst heq; decide

/-! ## Theorems: decimal -/

theorem digitVal_digitChar : ∀ n < 10, digitVal (digitChar n) = n := by decide

theorem digitChar_ne_colon : ∀ n < 10, digitChar n ≠ ':' := by decide

theorem digitChar_ne_nl : ∀ n < 10, digitChar n ≠ '\n' := by decide

theorem digitChar_not_ws : ∀ n < 10, isJsWs (digitChar n) = false := by decide

theorem parseDecimal_acc (l : List Char) (a : Nat) :
    l.foldl (fun acc c => acc * 10 + digitVal c) a =
      a * 10 ^ l.length + parseDecimal l := by
  induction l generalizing a with
  | nil => simp [parseDecimal]
  | cons c cs ih =>
    have hr : parseDecimal (c :: cs) = digitVal c * 10 ^ cs.length + parseDecimal cs := by
      rw [parseDecimal, List.foldl_cons, ih]
      ring_nf
    rw [List.foldl_cons, ih, hr, List.length_cons]
    ring

theorem parseDecimal_natDigitsFuel {fuel : Nat} :
    ∀ n ≤ fuel, parseDecimal (natDigitsFuel fuel n) = n := by
  induction fuel with
  | zero =>
    intro n hn
    have hz : n = 0 := by omega
    subst hz
    rw [natDigitsFuel]
    simp [parseDecimal, digitVal_digitChar 0 (by omega)]
  | succ f ih =>
    intro n hn
    rw [natDigitsFuel]
    by_cases h : n < 10
    · rw [if_pos h]
      simp [parseDecimal, digitVal_digitChar n h]
    · rw [if_neg h, parseDecimal, List.foldl_append, List.foldl_cons, List.foldl_nil]
      have hbase : List.foldl (fun acc c => acc * 10 + digitVal c) 0
          (natDigitsFuel f (n / 10)) = parseDecimal (natDigitsFuel f (n / 10)) := rfl
      rw [hbase, ih (n / 10) (by omega)]
      rw [digitVal_digitChar _ (Nat.mod_lt _ (by omega))]
      omega

theorem parseDecimal_natDigits (n : Nat) : parseDecimal (natDigits n) = n :=
  parseDecimal_natDigitsFuel n (Nat.le_refl n)

theorem natDigitsFuel_mem {fuel : Nat} :
    ∀ {n c}, c ∈ natDigitsFuel fuel n → ∃ d, d < 10 ∧ c = digitChar d := by
  induction fuel with
  | zero =>
    intro n c hc
    rw [natDigitsFuel] at hc
    simp only [List.mem_cons, List.not_mem_nil, or_false] at hc
    exact ⟨n % 10, Nat.mod_lt _ (by omega), hc⟩
  | succ f ih =>
    intro n c hc
    rw [natDigitsFuel] at hc
    by_cases h : n < 10
    · rw [if_pos h] at hc
      simp only [List.mem_cons, List.not_mem_nil, or_false] at hc
      exact ⟨n, h, hc⟩
    · rw [if_neg h] at hc
      simp only [List.mem_append, List.mem_cons, List.not_mem_nil, or_false] at hc
      rcases hc with hmem | rfl
      · exact ih hmem
      · exact ⟨n % 10, Nat.mod_lt _ (by omega), rfl⟩

theorem natDigits_mem {n : Nat} {c : Char} (hc : c ∈ natDigits n) :
    ∃ d, d < 10 ∧ c = digitChar d :=
  natDigitsFuel_mem hc

theorem natDigits_no_colon {n : Nat} : ':' ∉ natDigits n := by
  intro hc
  obtain ⟨d, hd, he⟩ := natDigits_mem hc
  exact digitChar_ne_colon d hd he.symm

theorem natDigits_no_nl {n : Nat} : '\n' ∉ natDigits n := by
  intro hc
  obtain ⟨d, hd, he⟩ := natDigits_mem hc
  exact digitChar_ne_nl d hd he.symm

theorem natDigits_ne_nil {n : Nat} : natDigits n ≠ [] := by
  rw [natDigits]
  cases n with
  | zero => simp [natDigitsFuel]
  | succ m =>
    rw [natDigitsFuel]
    by_cases h : m + 1 < 10
    · rw [if_pos h]; simp
    · rw [if_neg h]; simp

theorem natDigits_head_not_ws {n : Nat} {c : Char} {cs : List Char}
    (h : natDigits n = c :: cs) : isJsWs c = false := by
  have hc : c ∈ natDigits n := h ▸ List.mem_cons_self c cs
  obtain ⟨d, hd, he⟩ := natDigits_mem hc
  subst he
  exact digitChar_not_ws d hd

/-! ## Theorems: the line parser is insensitive to chunk boundaries -/

theorem stepChunk_eq_foldl (chunk : List Char) :
    ∀ st : List Char × List (List Char), stepChunk st chunk = chunk.foldl lineStep st := by
  induction chunk with
  | nil =>
    intro st
    simp [stepChunk, splitSep, dispatchLoop]
  | cons c cs ih =>
    intro st
    rcases hsp : splitSep '\n' cs with ⟨h0, t0⟩
    by_cases hc : c = '\n'
    · subst hc
      have hsplit : splitSep '\n' ('\n' :: cs) = ([], h0 :: t0) := by
        simp [splitSep, hsp]
      rw [stepChunk, hsplit]
      show dispatchLoop (st.1 ++ []) st.2 (h0 :: t0) =
        List.foldl lineStep st ('\n' :: cs)
      rw [List.foldl_cons]
      rw [show lineStep st '\n' = ([], st.2 ++ [st.1]) from by simp [lineStep]]
      rw [← ih ([], st.2 ++ [st.1])]
      rw [stepChunk, hsp]
      simp [dispatchLoop]
    · have hsplit : splitSep '\n' (c :: cs) = (c :: h0, t0) := by
        simp [splitSep, hsp, hc]
      rw [stepChunk, hsplit]
      show dispatchLoop (st.1 ++ c :: h0) st.2 t0 =
        List.foldl lineStep st (c :: cs)
      rw [List.foldl_cons]
      rw [show lineStep st c = (st.1 ++ [c], st.2) from by simp [lineStep, hc]]
      rw [← ih (st.1 ++ [c], st.2)]
      rw [stepChunk, hsp]
      simp

theorem parseChunks_eq_flatten (chunks : List (List Char)) :
    parseChunks chunks = chunks.flatten.foldl lineStep ([], []) := by
  have hfun : stepChunk = fun st l => l.foldl lineStep st :=
    funext fun st => funext fun l => stepChunk_eq_foldl l st
  rw [parseChunks, hfun, List.foldl_flatten]

theorem foldl_lineStep_no_nl {line : List Char} (h : '\n' ∉ line) :
    ∀ buf out, line.foldl lineStep (buf, out) = (buf ++ line, out) := by
  induction line with
  | nil => intro buf out; simp
  | cons c cs ih =>
    intro buf out
    have hc : ¬c = '\n' := fun hh => h (hh ▸ List.mem_cons_self c cs)
    have hcs : '\n' ∉ cs := fun hh => h (List.mem_cons_of_mem _ hh)
    rw [List.foldl_cons]
    rw [show lineStep (buf, out) c = (buf ++ [c], out) from by simp [lineStep, hc]]
    rw [ih hcs]
    simp

theorem foldl_lineStep_lines {lines : List (List Char)}
    (h : ∀ l ∈ lines, '\n' ∉ l) :
    ∀ out, ((lines.map (fun l => l ++ ['\n'])).flatten).foldl lineStep ([], out) =
      ([], out ++ lines) := by
  induction lines with
  | nil => intro out; simp
  | cons l ls ih =>
    intro out
    have hl : '\n' ∉ l := h l (List.mem_cons_self _ _)
    have hls : ∀ x ∈ ls, '\n' ∉ x := fun x hx => h x (List.mem_cons_of_mem _ hx)
    rw [List.map_cons, List.flatten_cons, List.foldl_append, List.foldl_append]
    rw [foldl_lineStep_no_nl hl]
    rw [show List.foldl lineStep ([] ++ l, out) ['\n'] = ([], out ++ [l]) from by
      simp [lineStep]]
    rw [ih hls]
    simp

/-! ## Theorems: shape of emitted records -/

theorem eventValue_no_colon {e : WEvent} : ':' ∉ eventValue e := by
  cases e with
  | online b => cases b <;> simp [eventValue]
  | stdout bs => exact b64encode_no_colon
  | stderr bs => exact b64encode_no_colon
  | message bs => exact b64encode_no_colon
  | exited c => exact natDigits_no_colon
  | errored bs => exact b64encode_no_colon

theorem eventValue_no_nl {e : WEvent} : '\n' ∉ eventValue e := by
  cases e with
  | online b => cases b <;> simp [eventValue]
  | stdout bs => exact b64encode_no_nl
  | stderr bs => exact b64encode_no_nl
  | message bs => exact b64encode_no_nl
  | exited c => exact natDigits_no_nl
  | errored bs => exact b64encode_no_nl

theorem eventName_no_colon {e : WEvent} : ':' ∉ eventName e := by
  cases e <;> simp only [eventName] <;> decide

theorem eventName_no_nl {e : WEvent} : '\n' ∉ eventName e := by
  cases e <;> simp only [eventName] <;> decide

theorem eventValue_nil_or_head_not_ws (e : WEvent) :
    eventValue e = [] ∨ ∃ c cs, eventValue e = c :: cs ∧ isJsWs c = false := by
  cases e with
  | online b => cases b <;> right <;> exact ⟨_, _, rfl, by decide⟩
  | stdout bs =>
    rcases hb : b64encode bs with _ | ⟨c, cs⟩
    · exact Or.inl hb
    · exact Or.inr ⟨c, cs, hb, b64encode_head_not_ws hb⟩
  | stderr bs =>
    rcases hb : b64encode bs with _ | ⟨c, cs⟩
    · exact Or.inl hb
    · exact Or.inr ⟨c, cs, hb, b64encode_head_not_ws hb⟩
  | message bs =>
    rcases hb : b64encode bs with _ | ⟨c, cs⟩
    · exact Or.inl hb
    · exact Or.inr ⟨c, cs, hb, b64encode_head_not_ws hb⟩
  | exited c =>
    rcases hb : natDigits c with _ | ⟨d, ds⟩
    · exact absurd hb natDigits_ne_nil
    · exact Or.inr ⟨d, ds, hb, natDigits_head_not_ws hb⟩
  | errored bs =>
    rcases hb : b64encode bs with _ | ⟨c, cs⟩
    · exact Or.inl hb
    · exact Or.inr ⟨c, cs, hb, b64encode_head_not_ws hb⟩

theorem encodeRecord_no_nl {e : WEvent} : '\n' ∉ encodeRecord e := by
  rw [encodeRecord]
  intro hmem
  rcases List.mem_append.mp hmem with hn | hv
  · exact eventName_no_nl hn
  · simp only [List.mem_cons] at hv
    rcases hv with h | h | h
    · exact absurd h (by decide)
    · exact absurd h (by decide)
    · exact eventValue_no_nl h

theorem lineName_encodeRecord (e : WEvent) :
    lineName (encodeRecord e) = eventName e := by
  have hrest : ':' ∉ ' ' :: eventValue e := by
    intro hmem
    simp only [List.mem_cons] at hmem
    rcases hmem with h | h
    · exact absurd h (by decide)
    · exact eventValue_no_colon h
  rw [lineName, encodeRecord, splitSep_append_sep eventName_no_colon hrest]

theorem lineValue_encodeRecord (e : WEvent) :
    lineValue (encodeRecord e) = eventValue e := by
  have hrest : ':' ∉ ' ' :: eventValue e := by
    intro hmem
    simp only [List.mem_cons] at hmem
    rcases hmem with h | h
    · exact absurd h (by decide)
    · exact eventValue_no_colon h
  rw [lineValue, encodeRecord, splitSep_append_sep eventName_no_colon hrest]
  show trimStart (' ' :: eventValue e) = eventValue e
  exact trimStart_of_head_not_ws (eventValue_nil_or_head_not_ws e)

theorem recoverRecord_encodeRecord {e : WEvent} (h : ValidEvent e) :
    recoverRecord (encodeRecord e) = some e := by
  rw [recoverRecord]
  simp only [lineName_encodeRecord, lineValue_encodeRecord]
  cases e with
  | online b =>
    cases b <;> simp [eventName, eventValue]
  | stdout bs =>
    rw [eventName, eventValue]
    rw [if_neg (by decide), if_pos rfl]
    rw [b64decode_b64encode h]
  | stderr bs =>
    rw [eventName, eventValue]
    rw [if_neg (by decide), if_neg (by decide), if_pos rfl]
    rw [b64decode_b64encode h]
  | message bs =>
    rw [eventName, eventValue]
    rw [if_neg (by decide), if_neg (by decide), if_neg (by decide), if_pos rfl]
    rw [b64decode_b64encode h]
  | exited c =>
    rw [eventName, eventValue]
    rw [if_neg (by decide), if_neg (by decide), if_neg (by decide),
      if_neg (by decide), if_pos rfl]
    rw [parseDecimal_natDigits]
  | errored bs =>
    rw [eventName, eventValue]
    rw [if_neg (by decide), if_neg (by decide), if_neg (by decide),
      if_neg (by decide), if_neg (by decide), if_pos rfl]
    rw [b64decode_b64encode h]

/-! ## Claim theorems: framing -/

/-- C1.  For every finite sequence of worker events encoded by the node's
event-stream writer as `name: value\n` lines, and for every partition of
the resulting byte stream into arbitrary chunks, feeding those chunks to
the client demultiplexer's line parser dispatches exactly the original
records, in the original order (and the record encoding is injective on
valid events, so the dispatched records determine the original events). -/
theorem framing_roundtrip (es : List WEvent) (hv : ∀ e ∈ es, ValidEvent e)
    (chunks : List (List Char)) (hc : chunks.flatten = encodeStream es)
    (e1 e2 : WEvent) (h1 : ValidEvent e1) (h2 : ValidEvent e2)
    (heq : encodeRecord e1 = encodeRecord e2) :
    (parseChunks chunks).2 = es.map encodeRecord ∧ e1 = e2 := by
  constructor
  · rw [parseChunks_eq_flatten, hc, encodeStream]
    have hmap : es.map (fun e => encodeRecord e ++ ['\n']) =
        (es.map encodeRecord).map (fun l => l ++ ['\n']) := by
      rw [List.map_map]
      rfl
    have hnl : ∀ l ∈ es.map encodeRecord, '\n' ∉ l := by
      intro l hl
      obtain ⟨e, _, rfl⟩ := List.mem_map.mp hl
      exact encodeRecord_no_nl
    rw [hmap, foldl_lineStep_lines hnl []]
    simp
  · have r1 := recoverRecord_encodeRecord h1
    have r2 := recoverRecord_encodeRecord h2
    rw [heq, r2] at r1
    exact (Option.some_inj.mp r1).symm

/-- Witness for C1: the three-event stream `online`, `stdout "hi"`,
`exit 0`, cut into chunks at arbitrary byte boundaries. -/
theorem framing_roundtrip_witness :
    (parseChunks ["online: tr".toList, "ue\nstdout: aGk=\nexi".toList,
        "t: 0\n".toList]).2 =
      [WEvent.online true, WEvent.stdout [104, 105],
        WEvent.exited 0].map encodeRecord ∧
    WEvent.online true = WEvent.online true :=
  framing_roundtrip
    [WEvent.online true, WEvent.stdout [104, 105], WEvent.exited 0]
    (by decide)
    ["online: tr".toList, "ue\nstdout: aGk=\nexi".toList, "t: 0\n".toList]
    (by decide)
    (WEvent.online true) (WEvent.online true) (by decide) (by decide) rfl

/-- C10.  Every line the event-stream writer emits has the form
`name: value` where the value contains neither `:` nor a newline, and the
demultiplexer's extraction of the value as the fragment after the first
colon, trimmed of leading whitespace, recovers the encoded value exactly
(and the name fragment recovers the name). -/
theorem emitted_line_shape (e : WEvent) (h : ValidEvent e) :
    encodeRecord e = eventName e ++ ':' :: ' ' :: eventValue e ∧
    ':' ∉ eventValue e ∧ '\n' ∉ eventValue e ∧
    lineName (encodeRecord e) = eventName e ∧
    lineValue (encodeRecord e) = eventValue e :=
  ⟨rfl, eventValue_no_colon, eventValue_no_nl,
    lineName_encodeRecord e, lineValue_encodeRecord e⟩

/-- Witness for C10: the `stdout "hi"` record. -/
theorem emitted_line_shape_witness :
    encodeRecord (WEvent.stdout [104, 105]) =
      eventName (WEvent.stdout [104, 105]) ++ ':' :: ' ' ::
        eventValue (WEvent.stdout [104, 105]) ∧
    ':' ∉ eventValue (WEvent.stdout [104, 105]) ∧
    '\n' ∉ eventValue (WEvent.stdout [104, 105]) ∧
    lineName (encodeRecord (WEvent.stdout [104, 105])) =
      eventName (WEvent.stdout [104, 105]) ∧
    lineValue (encodeRecord (WEvent.stdout [104, 105])) =
      eventValue (WEvent.stdout [104, 105]) :=
  emitted_line_shape (WEvent.stdout [104, 105]) (by decide)

/-! ## Claim theorems: bundle cache -/

/-- C2 counterexample.  In the state reached by `POST /bundles/create` for
fingerprint `"h"` on a fresh cache — a state where `put_data` has not yet
completed — `GET /bundles/h` does not return 404: it succeeds with 200 and
reports size 0.  This falsifies the claim that `describe` cannot succeed
before `put_data` completes. -/
theorem describe_pending_succeeds_cx :
    PendingSlot (bundlesCreate ⟨[], []⟩ "h").1 "h" ∧
    (bundlesDescribe (bundlesCreate ⟨[], []⟩ "h").1 "h").2 = 200 ∧
    (bundlesDescribe (bundlesCreate ⟨[], []⟩ "h").1 "h").2 ≠ 404 := by
  decide

/-- C2 amended.  In every bundle-cache state where `create` has reserved a
slot for fingerprint `hash` but `put_data` has not yet completed, `describe`
succeeds: it returns 200 with the slot reported at size 0 (the node reports
reserved-but-empty entries as present, not absent). -/
theorem describe_pending_reports_empty (st : BundleCache) (hash : String)
    (h : PendingSlot st hash) :
    bundlesDescribe st hash = (some (hash, 0), 200) := by
  rcases h with ⟨hmem, hlook⟩
  rw [bundlesDescribe, if_pos hmem, hlook]
  rfl

/-- Witness for the amended C2, at the concrete post-`create` state. -/
theorem describe_pending_reports_empty_witness :
    bundlesDescribe (bundlesCreate ⟨[], []⟩ "h").1 "h" = (some ("h", 0), 200) :=
  describe_pending_reports_empty (bundlesCreate ⟨[], []⟩ "h").1 "h" (by decide)

/-- C7.  `POST /bundles/{hash}/data` responds 404 when no slot was reserved
under that fingerprint, 400 when the request body is not binary, and 204
otherwise; when the resolved compression is `none` the body bytes are
written to the slot, and for any unrecognized compression value nothing is
written (a query value that is absent or empty is falsy in
`req.query['compression'] || 'none'` and therefore resolves to `none`). -/
theorem putData_statuses (st : BundleCache) (hash : String)
    (data : List Nat) (body : Option (List Nat)) (q : Option String) (v : String) :
    (hash ∉ st.cachedBundledHashes → bundlesPutData st hash body q = (st, 404)) ∧
    (hash ∈ st.cachedBundledHashes → bundlesPutData st hash none q = (st, 400)) ∧
    (hash ∈ st.cachedBundledHashes → jsQueryDefault q "none" = "none" →
      bundlesPutData st hash (some data) q =
        ({ st with files := setFile st.files hash data }, 204)) ∧
    (hash ∈ st.cachedBundledHashes → v ≠ "none" → v ≠ "" →
      bundlesPutData st hash (some data) (some v) = (st, 204)) := by
  refine ⟨fun hmem => ?_, fun hmem => ?_, fun hmem hq => ?_, fun hmem hv hv2 => ?_⟩
  · rw [bundlesPutData.eq_def, if_pos hmem]
  · rw [bundlesPutData.eq_def, if_neg (by simp [hmem])]
  · rw [bundlesPutData.eq_def, if_neg (by simp [hmem])]
    simp [hq]
  · rw [bundlesPutData.eq_def, if_neg (by simp [hmem])]
    have hqq : jsQueryDefault (some v) "none" = v := by
      rw [jsQueryDefault, if_neg hv2]
    simp [hqq, hv]

/-- Witness for C7 at concrete states: a missing slot gives 404, a
non-binary body gives 400, `compression=none` writes the bytes and gives
204, and `compression=gzip` writes nothing and gives 204. -/
theorem putData_statuses_witness :
    bundlesPutData ⟨["h"], [("h", [])]⟩ "x" (some [1]) none =
      (⟨["h"], [("h", [])]⟩, 404) ∧
    bundlesPutData ⟨["h"], [("h", [])]⟩ "h" none none =
      (⟨["h"], [("h", [])]⟩, 400) ∧
    bundlesPutData ⟨["h"], [("h", [])]⟩ "h" (some [1, 2]) (some "none") =
      (⟨["h"], [("h", [1, 2])]⟩, 204) ∧
    bundlesPutData ⟨["h"], [("h", [])]⟩ "h" (some [1, 2]) (some "gzip") =
      (⟨["h"], [("h", [])]⟩, 204) := by
  refine ⟨?_, ?_, ?_, ?_⟩
  · exact (putData_statuses ⟨["h"], [("h", [])]⟩ "x" [1] (some [1]) none "").1
      (by decide)
  · exact (putData_statuses ⟨["h"], [("h", [])]⟩ "h" [1] none none "").2.1
      (by decide)
  · have := (putData_statuses ⟨["h"], [("h", [])]⟩ "h" [1, 2] (some [1, 2])
      (some "none") "").2.2.1 (by decide) (by decide)
    rw [this]
    decide
  · exact (putData_statuses ⟨["h"], [("h", [])]⟩ "h" [1, 2] (some [1, 2])
      (some "gzip") "gzip").2.2.2 (by decide) (by decide) (by decide)

/-! ## Theorems: incremental placement -/

theorem add_one_mod (a n : Nat) (hn : 1 ≤ n) :
    (a + 1) % n = if a % n + 1 < n then a % n + 1 else 0 := by
  rcases Nat.lt_or_ge 1 n with h1 | h1
  · rw [Nat.add_mod, Nat.mod_eq_of_lt h1]
    have hr : a % n < n := Nat.mod_lt _ (by omega)
    by_cases h : a % n + 1 < n
    · rw [if_pos h, Nat.mod_eq_of_lt h]
    · have he : a % n + 1 = n := by omega
      rw [if_neg h, he, Nat.mod_self]
  · have hn1 : n = 1 := by omega
    subst hn1
    simp [Nat.mod_one]

theorem incrementalRun_closed (n : Nat) (hn : 1 ≤ n) :
    ∀ k, incrementalRun n k =
      ((if k = 0 then (-1 : Int) else (((k - 1) % n : Nat) : Int)),
        (List.range k).map (fun i => i % n)) := by
  intro k
  induction k with
  | zero => simp [incrementalRun]
  | succ k ih =>
    have hstep : incrementalRun n (k + 1) =
        ((findNodeIncremental n (incrementalRun n k).1).2,
          (incrementalRun n k).2 ++ [(findNodeIncremental n (incrementalRun n k).1).1]) := rfl
    cases k with
    | zero =>
      have h0 : incrementalRun n 0 = (-1, []) := rfl
      have hsel : findNodeIncremental n (-1) = (0, 0) := by
        rw [findNodeIncremental, if_pos ⟨by omega, by omega⟩]
        rfl
      rw [hstep, h0, hsel]
      simp [List.range_succ]
    | succ k0 =>
      have hr : k0 % n < n := Nat.mod_lt _ (by omega)
      have hfst : (incrementalRun n (k0 + 1)).1 = ((k0 % n : Nat) : Int) := by
        rw [ih]
        simp
      have hsnd : (incrementalRun n (k0 + 1)).2 =
          (List.range (k0 + 1)).map (fun i => i % n) := by
        rw [ih]
      rw [hstep, hfst, hsnd]
      rw [if_neg (Nat.succ_ne_zero (k0 + 1)), Nat.add_sub_cancel]
      by_cases h : k0 % n + 1 < n
      · have hmod : (k0 + 1) % n = k0 % n + 1 := by
          rw [add_one_mod k0 n hn, if_pos h]
        have hc : (0 : Int) ≤ ((k0 % n : Nat) : Int) + 1 ∧
            ((k0 % n : Nat) : Int) + 1 < (n : Int) := by
          constructor
          · omega
          · push_cast
            omega
        have hsel1 : (findNodeIncremental n ((k0 % n : Nat) : Int)).1 = k0 % n + 1 := by
          rw [findNodeIncremental, if_pos hc]
          omega
        have hsel2 : (findNodeIncremental n ((k0 % n : Nat) : Int)).2 =
            ((k0 % n + 1 : Nat) : Int) := by
          rw [findNodeIncremental, if_pos hc]
          push_cast
          ring
        rw [hsel1, hsel2]
        simp [List.range_succ, hmod]
      · have hmod : (k0 + 1) % n = 0 := by
          rw [add_one_mod k0 n hn, if_neg h]
        have hc : ¬((0 : Int) ≤ ((k0 % n : Nat) : Int) + 1 ∧
            ((k0 % n : Nat) : Int) + 1 < (n : Int)) := by
          push_neg
          intro _
          push_cast
          omega
        have hsel : findNodeIncremental n ((k0 % n : Nat) : Int) = (0, 0) := by
          rw [findNodeIncremental, if_neg hc]
        rw [hsel]
        simp [List.range_succ, hmod]

theorem count_range_map_mod (n m j : Nat) (hn : 1 ≤ n) (hj : j < n) :
    ((List.range (n * m)).map (fun i => i % n)).count j = m := by
  induction m with
  | zero => simp
  | succ m ih =>
    rw [Nat.mul_succ, List.range_add, List.map_append, List.count_append, ih]
    have hmap : (List.map (fun x => n * m + x) (List.range n)).map (fun i => i % n) =
        List.range n := by
      rw [List.map_map]
      have hcongr : ∀ x ∈ List.range n,
          ((fun i => i % n) ∘ fun x => n * m + x) x = id x := by
        intro x hx
        have hxlt : x < n := List.mem_range.mp hx
        show (n * m + x) % n = x
        rw [Nat.add_comm, Nat.add_mul_mod_self_left]
        exact Nat.mod_eq_of_lt hxlt
      rw [List.map_congr_left hcongr, List.map_id]
    rw [hmap, List.count_eq_one_of_mem (List.nodup_range n) (List.mem_range.mpr hj)]

/-- C4.  Under the `incremental` policy with `n ≥ 1` registered nodes,
starting from a fresh client (`_lastIndex = -1`), the node selected at the
`i`-th spawn (0-based) is the one at registration index `i % n` — so over
`n·m` consecutive spawns the selections cycle through the registration
order and each node is chosen exactly `m` times. -/
theorem incremental_fairness (n m j : Nat) (hn : 1 ≤ n) (hj : j < n) :
    (incrementalRun n (n * m)).2 = (List.range (n * m)).map (fun i => i % n) ∧
    ((incrementalRun n (n * m)).2).count j = m := by
  have hrun := incrementalRun_closed n hn (n * m)
  constructor
  · rw [hrun]
  · rw [hrun]
    exact count_range_map_mod n m j hn hj

/-- Witness for C4: three nodes, six spawns — the assignment sequence is
n0, n1, n2, n0, n1, n2 and every node is selected twice. -/
theorem incremental_fairness_witness :
    (incrementalRun 3 (3 * 2)).2 = (List.range (3 * 2)).map (fun i => i % 3) ∧
    ((incrementalRun 3 (3 * 2)).2).count 1 = 2 :=
  incremental_fairness 3 2 1 (by decide) (by decide)

/-! ## Claim theorems: post-exit API (C3) -/

/-- C3 (evaluation of the code at the failing input).  The post-exit guard
is `if (this.exitCode) throw workedExitError`, and after a normal exit with
code 0 the stored `exitCode` is `0`, which is falsy in JS — so
`postMessage`, `terminate` and `stdin` writes after `exit(0)` do NOT fail:
they write to the control stream.  With any nonzero exit code they fail
with the well-known error, as the claim expects. -/
theorem postExit_guard_misses_zero :
    postMessageW (some 0) [120] =
      .ok ("worker_message: ".toList ++ b64encode [120] ++ ['\n']) ∧
    terminateW (some 0) = .ok "terminate: true\n".toList ∧
    stdinDataHandler false (some 0) [120] =
      .ok ("stdin: ".toList ++ b64encode [120] ++ ['\n'], true) ∧
    postMessageW (some 1) [120] = .error workedExitError ∧
    terminateW (some 1) = .error workedExitError ∧
    stdinDataHandler false (some 1) [120] = .error workedExitError :=
  ⟨rfl, rfl, rfl, rfl, rfl, rfl⟩

/-! ## Claim theorems: stdin without `stdin: true` (C8) -/

/-- C8 counterexample.  Two writes to `stdin` on a worker spawned without
`stdin: true` produce two warnings — the warning is inside the `data`
handler and fires on every write, not once in total. -/
theorem stdin_warns_per_write_cx :
    (runStdinWrites false [[120], [121]]).2 = 2 ∧
    (runStdinWrites false [[120], [121]]).2 ≠ 1 := by
  decide

/-- C8 amended.  For a worker spawned without `stdin: true`, every write by
the caller to `stdin` produces a warning (one per write, so at least one
warning when there is at least one write, and none when the option is
enabled), and the node delivers no bytes to the child: its control-stream
handler drops every `stdin` record when the child has no standard-input
pipe. -/
theorem stdin_warns_and_node_drops (chunks : List (List Nat)) (line : List Char) :
    (runStdinWrites false chunks).2 = chunks.length ∧
    (chunks ≠ [] → 1 ≤ (runStdinWrites false chunks).2) ∧
    (runStdinWrites true chunks).2 = 0 ∧
    (lineName line = "stdin".toList → controlOnMessage false line = .dropped) := by
  have hfalse : (runStdinWrites false chunks).2 = chunks.length := by
    induction chunks with
    | nil => rfl
    | cons c cs ih =>
      show (runStdinWrites false (c :: cs)).2 = cs.length + 1
      rw [runStdinWrites]
      simp only [stdinDataHandler, exitCodeTruthy, if_neg (by decide : ¬False)]
      simp [ih]
      omega
  refine ⟨hfalse, ?_, ?_, ?_⟩
  · intro hne
    rw [hfalse]
    cases chunks with
    | nil => exact absurd rfl hne
    | cons c cs => simp
  · clear hfalse
    induction chunks with
    | nil => rfl
    | cons c cs ih =>
      show (runStdinWrites true (c :: cs)).2 = 0
      rw [runStdinWrites]
      simp only [stdinDataHandler, exitCodeTruthy, if_neg (by decide : ¬False)]
      simp [ih]
  · intro hname
    rw [controlOnMessage]
    simp only [hname, if_pos rfl]
    rfl

/-- Witness for the amended C8: one write, the record `stdin: eA==`. -/
theorem stdin_warns_and_node_drops_witness :
    (runStdinWrites false [[120]]).2 = [[120]].length ∧
    1 ≤ (runStdinWrites false [[120]]).2 ∧
    (runStdinWrites true [[120]]).2 = 0 ∧
    controlOnMessage false "stdin: eA==".toList = .dropped := by
  have h := stdin_warns_and_node_drops [[120]] "stdin: eA==".toList
  exact ⟨h.1, h.2.1 (by decide), h.2.2.1, h.2.2.2 (by decide)⟩

/-! ## Claim theorems: `exitOnRequestEnd` grace window (C6) -/

/-- C6.  In the read-stream disconnect logic, a worker becomes terminated
only when a grace timer fires while the connected-read-stream count is
zero; a grace timer is scheduled by a stream close only when that stream
had `exitOnRequestEnd` and the count reached zero at the moment of
closure; and concretely, closing the last stream and reattaching before
the timer fires leaves the worker alive, while not reattaching lets the
timer terminate it. -/
theorem grace_window_termination (s : GraceState) (e : GraceEv) (flag : Bool) :
    ((graceStep s e).terminated = true → s.terminated = true ∨
      (e = .fire ∧ s.sockets = 0 ∧ s.pending ≠ 0)) ∧
    ((graceStep s (.close flag)).pending ≠ s.pending →
      flag = true ∧ s.sockets - 1 = 0) ∧
    graceRun ⟨1, 0, false⟩ [.close true, .attach, .fire] = ⟨1, 0, false⟩ ∧
    graceRun ⟨1, 0, false⟩ [.close true, .fire] = ⟨0, 0, true⟩ := by
  refine ⟨?_, ?_, by decide, by decide⟩
  · intro h
    cases e with
    | attach => exact Or.inl h
    | close f =>
      left
      have hsame : (graceStep s (.close f)).terminated = s.terminated := by
        rw [graceStep]
        split <;> rfl
      rw [← hsame]
      exact h
    | fire =>
      rcases hp : s.pending with _ | p
      · rw [graceStep] at h
        simp only [hp] at h
        exact Or.inl h
      · by_cases hs : s.sockets = 0
        · exact Or.inr ⟨rfl, hs, by omega⟩
        · rw [graceStep] at h
          simp only [hp, if_neg hs] at h
          exact Or.inl h
  · intro h
    rw [graceStep] at h
    by_cases hc : flag = true ∧ s.sockets - 1 = 0
    · exact hc
    · rw [if_neg ?_] at h
      · exact absurd rfl h
      · simpa using hc

/-- Witness for C6: a fire with zero sockets and a pending timer
terminates; closing the only stream with `exitOnRequestEnd` schedules a
timer. -/
theorem grace_window_termination_witness :
    ((⟨0, 1, false⟩ : GraceState).terminated = true ∨
      (GraceEv.fire = GraceEv.fire ∧ (⟨0, 1, false⟩ : GraceState).sockets = 0 ∧
        (⟨0, 1, false⟩ : GraceState).pending ≠ 0)) ∧
    (true = true ∧ (⟨1, 0, false⟩ : GraceState).sockets - 1 = 0) :=
  ⟨(grace_window_termination ⟨0, 1, false⟩ .fire true).1 (by decide),
   (grace_window_termination ⟨1, 0, false⟩ .fire true).2.1 (by decide)⟩

/-! ## Claim theorems: CPU sampling (C9) -/

/-- C9 counterexample.  Two successive `/health` calls with identical
(hence non-decreasing) per-core counters give all-zero deltas, and the JS
expression `1 - 0/0` is `NaN` — not a value in [0,1].  In the model the
non-finite result is `none`: the call reports no number for that core. -/
theorem cpu_usage_nan_cx :
    (getCPUUsage [⟨1, 1, 1⟩] [⟨1, 1, 1⟩]).1 = [none] ∧
    ((getCPUUsage [⟨1, 1, 1⟩] [⟨1, 1, 1⟩]).1.all fun r => r.isSome) = false := by
  constructor
  · show ([CPUTimes.mk (1 - 1) (1 - 1) (1 - 1)].map cpuUtilization) = [none]
    rw [List.map_cons, List.map_nil, cpuUtilization, if_pos (by norm_num)]
  · show (([CPUTimes.mk (1 - 1) (1 - 1) (1 - 1)].map cpuUtilization).all
      fun r => r.isSome) = false
    rw [List.map_cons, List.map_nil, cpuUtilization, if_pos (by norm_num)]
    rfl

/-- C9 amended.  Each `/health` call maps the current cumulative counters
against those recorded at the previous call (replacing the stored baseline
with the current reading), reporting per core
`1 − idleΔ/(userΔ + sysΔ + idleΔ)`; the reported value lies in [0,1]
whenever the counters are non-decreasing and the core's total delta is
positive — a zero total delta produces no number (JS `NaN`). -/
theorem cpu_usage_formula (timesBefore timesCurrent : List CPUTimes)
    (d : CPUTimes) (hu : 0 ≤ d.user) (hs : 0 ≤ d.sys) (hi : 0 ≤ d.idle)
    (hpos : 0 < d.user + d.sys + d.idle) :
    (getCPUUsage timesBefore timesCurrent).2 = timesCurrent ∧
    (getCPUUsage timesBefore timesCurrent).1 =
      (List.zipWith (fun t b =>
        CPUTimes.mk (t.user - b.user) (t.sys - b.sys) (t.idle - b.idle))
        timesCurrent timesBefore).map cpuUtilization ∧
    cpuUtilization d = some (1 - d.idle / (d.user + d.sys + d.idle)) ∧
    0 ≤ 1 - d.idle / (d.user + d.sys + d.idle) ∧
    1 - d.idle / (d.user + d.sys + d.idle) ≤ 1 := by
  refine ⟨rfl, rfl, ?_, ?_, ?_⟩
  · rw [cpuUtilization, if_neg (by intro hz; rw [hz] at hpos; exact lt_irrefl 0 hpos)]
  · have hle : d.idle / (d.user + d.sys + d.idle) ≤ 1 := by
      rw [div_le_one hpos]
      linarith
    linarith
  · have hnn : 0 ≤ d.idle / (d.user + d.sys + d.idle) :=
      div_nonneg hi (le_of_lt hpos)
    linarith

/-- Witness for the amended C9: one core, baseline (0,0,0), current
(3,1,4): utilization 1 − 4/8 = 1/2 ∈ [0,1]. -/
theorem cpu_usage_formula_witness :
    (getCPUUsage [⟨0, 0, 0⟩] [⟨3, 1, 4⟩]).2 = [⟨3, 1, 4⟩] ∧
    (getCPUUsage [⟨0, 0, 0⟩] [⟨3, 1, 4⟩]).1 =
      (List.zipWith (fun (t b : CPUTimes) =>
        CPUTimes.mk (t.user - b.user) (t.sys - b.sys) (t.idle - b.idle))
        [⟨3, 1, 4⟩] [⟨0, 0, 0⟩]).map cpuUtilization ∧
    cpuUtilization ⟨3, 1, 4⟩ = some (1 - (4 : ℚ) / (3 + 1 + 4)) ∧
    0 ≤ 1 - (4 : ℚ) / (3 + 1 + 4) ∧
    1 - (4 : ℚ) / (3 + 1 + 4) ≤ 1 :=
  cpu_usage_formula [⟨0, 0, 0⟩] [⟨3, 1, 4⟩] ⟨3, 1, 4⟩
    (by norm_num) (by norm_num) (by norm_num) (by norm_num)

/-! ## Theorems: balancing placement -/

theorem getD_mem {α : Type _} {l : List α} {i : Nat} {d : α} (h : i < l.length) :
    l.getD i d ∈ l := by
  rw [List.getD_eq_getElem?_getD, List.getElem?_eq_getElem h, Option.getD_some]
  exact List.getElem_mem h

theorem balancingLe_total (a b : NodeClient) :
    balancingLe a b = true ∨ balancingLe b a = true := by
  rcases a with ⟨na, _ | ua⟩ <;> rcases b with ⟨nb, _ | ub⟩ <;>
    simp [balancingLe]
  exact le_total (averageCPUUsage ub) (averageCPUUsage ua)

theorem balancingLe_trans {a b c : NodeClient} (ha : a.usage.isSome)
    (hb : b.usage.isSome) (hc : c.usage.isSome) :
    balancingLe a b = true → balancingLe b c = true → balancingLe a c = true := by
  rcases a with ⟨na, _ | ua⟩
  · simp at ha
  rcases b with ⟨nb, _ | ub⟩
  · simp at hb
  rcases c with ⟨nc, _ | uc⟩
  · simp at hc
  simp only [balancingLe, decide_eq_true_eq]
  intro h1 h2
  exact le_trans h2 h1

theorem pairwise_mergeSort_ready (ready : List NodeClient)
    (hready : ∀ x ∈ ready, x.usage.isSome) :
    (ready.mergeSort balancingLe).Pairwise
      (fun a b => balancingLe a b = true) := by
  have hcompat : ∀ a ∈ ready.attach, ∀ b ∈ ready.attach,
      (fun (x y : {x // x ∈ ready}) => balancingLe x.1 y.1) a b =
        balancingLe a.1 b.1 := fun a _ b _ => rfl
  have hmap : (ready.attach.mergeSort
        fun (x y : {x // x ∈ ready}) => balancingLe x.1 y.1).map Subtype.val =
      ready.mergeSort balancingLe := by
    rw [List.map_mergeSort hcompat, List.attach_map_subtype_val]
  rw [← hmap, List.pairwise_map]
  apply List.sorted_mergeSort
  · intro x y z hxy hyz
    exact balancingLe_trans (hready _ x.2) (hready _ y.2) (hready _ z.2) hxy hyz
  · intro x y
    rcases balancingLe_total x.1 y.1 with h | h <;> simp [h]

theorem mergeSort_ready_perm (ready : List NodeClient) :
    (ready.mergeSort balancingLe).Perm ready :=
  List.mergeSort_perm ready balancingLe

/-- C5.  Under the `balancing` policy: when no node has a load sample the
first registered node is selected and the cursor is untouched; otherwise
selection is restricted to the nodes with a known sample, those nodes are
sorted by descending mean per-core utilization (the stable sort of the
filtered list, so ties keep registration order) and a round-robin cursor
advances within that sorted list; in particular on a fresh client
(`_lastIndex = -1`) with two nodes of mean utilizations 0.2 and 0.8 the
first spawn selects the 0.8 node, and with two nodes of equal means the
first spawn selects the first-registered node. -/
theorem findNodeBalancing_eq_getD (nodes : List NodeClient) (lastIndex : Int)
    (hready : nodes.filter (fun n => n.usage.isSome) ≠ []) :
    findNodeBalancing nodes lastIndex =
      (((nodes.filter (fun n => n.usage.isSome)).mergeSort balancingLe).getD
        (if 0 ≤ lastIndex + 1 ∧ lastIndex + 1 <
            (((nodes.filter (fun n => n.usage.isSome)).mergeSort
              balancingLe).length : Int)
          then (lastIndex + 1).toNat else 0) defaultNode,
        if 0 ≤ lastIndex + 1 ∧ lastIndex + 1 <
            (((nodes.filter (fun n => n.usage.isSome)).mergeSort
              balancingLe).length : Int)
          then lastIndex + 1 else 0) := by
  have hlen1 : 0 < (nodes.filter (fun n => n.usage.isSome)).length :=
    List.length_pos.mpr hready
  rw [findNodeBalancing, if_neg (by omega)]
  by_cases hcond : 0 ≤ lastIndex + 1 ∧ lastIndex + 1 <
      (((nodes.filter (fun n => n.usage.isSome)).mergeSort
        balancingLe).length : Int)
  · rw [if_pos hcond, if_pos hcond, if_pos hcond]
  · rw [if_neg hcond, if_neg hcond, if_neg hcond]

/-- C5.  Under the `balancing` policy: when no node has a load sample the
first registered node is selected and the cursor is untouched; otherwise
selection is restricted to the nodes with a known sample, those nodes are
sorted by descending mean per-core utilization (the stable sort of the
filtered list, so ties keep registration order) and a round-robin cursor
advances within that sorted list; in particular on a fresh client
(`_lastIndex = -1`) with two nodes of mean utilizations 0.2 and 0.8 the
first spawn selects the 0.8 node, and with two nodes of equal means the
first spawn selects the first-registered node. -/
theorem balancing_selection (nodes : List NodeClient) (lastIndex : Int) :
    (nodes.filter (fun n => n.usage.isSome) = [] →
      findNodeBalancing nodes lastIndex = (nodes.headD defaultNode, lastIndex)) ∧
    (nodes.filter (fun n => n.usage.isSome) ≠ [] →
      (findNodeBalancing nodes lastIndex).1 ∈
        nodes.filter (fun n => n.usage.isSome)) ∧
    ((nodes.filter (fun n => n.usage.isSome)).mergeSort balancingLe).Pairwise
      (fun a b => balancingLe a b = true) ∧
    ((nodes.filter (fun n => n.usage.isSome)).mergeSort balancingLe).Perm
      (nodes.filter (fun n => n.usage.isSome)) ∧
    (nodes.filter (fun n => n.usage.isSome) ≠ [] →
      (findNodeBalancing nodes lastIndex).1 =
        ((nodes.filter (fun n => n.usage.isSome)).mergeSort balancingLe).getD
          (if 0 ≤ lastIndex + 1 ∧ lastIndex + 1 <
              (((nodes.filter (fun n => n.usage.isSome)).mergeSort
                balancingLe).length : Int)
            then (lastIndex + 1).toNat else 0) defaultNode) ∧
    findNodeBalancing
        [⟨some "a", some ⟨0, [1/5]⟩⟩, ⟨some "b", some ⟨0, [4/5]⟩⟩] (-1) =
      (⟨some "b", some ⟨0, [4/5]⟩⟩, 0) ∧
    findNodeBalancing
        [⟨some "a", some ⟨0, [1/2]⟩⟩, ⟨some "b", some ⟨0, [1/2]⟩⟩] (-1) =
      (⟨some "a", some ⟨0, [1/2]⟩⟩, 0) := by
  have hmem : ∀ x ∈ nodes.filter (fun n => n.usage.isSome), x.usage.isSome := by
    intro x hx
    exact (List.mem_filter.mp hx).2
  have hperm := mergeSort_ready_perm (nodes.filter (fun n => n.usage.isSome))
  refine ⟨?_, ?_, pairwise_mergeSort_ready _ hmem, hperm, ?_, ?_, ?_⟩
  · intro hempty
    rw [findNodeBalancing, if_pos (by rw [hempty]; decide)]
  · intro hready
    have hlen2 : 0 < ((nodes.filter (fun n => n.usage.isSome)).mergeSort
        balancingLe).length := by
      rw [hperm.length_eq]
      exact List.length_pos.mpr hready
    rw [findNodeBalancing_eq_getD nodes lastIndex hready]
    apply hperm.mem_iff.mp
    apply getD_mem
    by_cases hcond : 0 ≤ lastIndex + 1 ∧ lastIndex + 1 <
        (((nodes.filter (fun n => n.usage.isSome)).mergeSort
          balancingLe).length : Int)
    · rw [if_pos hcond]
      omega
    · rw [if_neg hcond]
      exact hlen2
  · intro hready
    rw [findNodeBalancing_eq_getD nodes lastIndex hready]
  · norm_num [findNodeBalancing, List.mergeSort, balancingLe, averageCPUUsage]
  · norm_num [findNodeBalancing, List.mergeSort, balancingLe, averageCPUUsage]

/-- Witness for C5: a node list without any load sample falls back to the
first registered node with the cursor untouched, and a fresh client with
two sampled nodes of means 0.2 and 0.8 selects the 0.8 node from within
the sampled set. -/
theorem balancing_selection_witness :
    findNodeBalancing [⟨some "a", none⟩, ⟨some "b", none⟩] 5 =
      (⟨some "a", none⟩, 5) ∧
    (findNodeBalancing
        [⟨some "a", some ⟨0, [1/5]⟩⟩, ⟨some "b", some ⟨0, [4/5]⟩⟩] (-1)).1 ∈
      ([⟨some "a", some ⟨0, [1/5]⟩⟩, ⟨some "b", some ⟨0, [4/5]⟩⟩] :
        List NodeClient).filter (fun n => n.usage.isSome) ∧
    findNodeBalancing
        [⟨some "a", some ⟨0, [1/5]⟩⟩, ⟨some "b", some ⟨0, [4/5]⟩⟩] (-1) =
      (⟨some "b", some ⟨0, [4/5]⟩⟩, 0) := by
  have h0 := balancing_selection [⟨some "a", none⟩, ⟨some "b", none⟩] 5
  have h := balancing_selection
    [⟨some "a", some ⟨0, [1/5]⟩⟩, ⟨some "b", some ⟨0, [4/5]⟩⟩] (-1)
  exact ⟨h0.1 (by decide), h.2.1 (by decide), h.2.2.2.2.2.1⟩

end WTC
